import Mathlib

/-!
Verification development for the record-tuple structural interning engine
(`src/cutting_room/record-tuple/record.js` and its collaborators).

The embedding models JavaScript values as `JSVal`, object identity as numeric
ids into an explicit store, and the interning graph as an association from
normalized entry sequences to ids.  `record.js` is embedded faithfully;
its collaborators (`utils.js`, `interngraph.js`, `tuple.js`) are not part of
the available source and are modelled from the specification, as marked in
the corresponding doc comments.

Garbage collection, weak-reference expiry and trie pruning are not modelled:
in the absence of collection every terminal stays live, and per the spec the
pruning strategy "does not affect correctness, only memory footprint".
-/

namespace RecordTuple

/-- A JavaScript value as seen by the record-tuple engine.  Numbers are
modelled as integers (no claim depends on float semantics).  `record` and
`tuple` denote already-interned composites, referenced by identity (an id
into the corresponding store).  `func` carries the function's source text
(its `toString`).  `obj` is an opaque plain host object; its fields are
irrelevant when it appears as a candidate property value, because it is
never internable. -/
inductive JSVal where
  | str (s : String)
  | num (n : Int)
  | bool (b : Bool)
  | undef
  | null
  | record (id : Nat)
  | tuple (id : Nat)
  | func (src : String)
  | obj
deriving DecidableEq, Repr

/-- Errors surfaced by the engine, per the spec's error taxonomy (§7):
a plain host `Error` with a message, `InvalidEntry(location, value)` where
the location is a record key or a tuple index, and `CapabilityMissing`. -/
inductive JSError where
  | plain (msg : String)
  | invalidEntry (location : String ⊕ Nat) (value : JSVal)
  | capabilityMissing (feature : String)
deriving DecidableEq, Repr

/-- Host capabilities the engine depends on (spec §4.5): weak references,
reflective freezing, stable identity comparison. -/
structure Features where
  weakRefs : Bool
  freeze : Bool
  stableIdentity : Bool
deriving DecidableEq, Repr

/-- Modelled from the spec: `assertFeatures` from the missing
`interngraph.js`/`utils.js`.  Spec §4.5: verify the host exposes weak
references, a freezing primitive and stable identity comparison; if any is
unavailable, fail with a descriptive capability error (§7:
`CapabilityMissing(feature)`). -/
def assertFeatures (f : Features) : Except JSError Unit :=
  if !f.weakRefs then .error (.capabilityMissing "weak reference")
  else if !f.freeze then .error (.capabilityMissing "freeze")
  else if !f.stableIdentity then .error (.capabilityMissing "stable identity comparison")
  else .ok ()

/-- Modelled from the spec: `isObject` from the missing `utils.js`.
True exactly for host objects and engine composites; false for primitives
and functions (`typeof` a function is not `"object"`). -/
def isObject : JSVal → Bool
  | .record _ => true
  | .tuple _ => true
  | .obj => true
  | _ => false

/-- Classification of a candidate value, per the spec's Value Classifier
(§4.1): internable primitive, internable-by-reference composite, or
invalid. -/
inductive Classified where
  | primitiveVal
  | compositeVal
  | invalidVal
deriving DecidableEq, Repr

/-- Modelled from the spec: the Value Classifier (§4.1, in the missing
`utils.js`).  Strings, numbers, booleans and the absent markers are
primitives; engine-produced composites are internable by reference;
callables and plain mutable host objects are invalid. -/
def classify : JSVal → Classified
  | .str _ => .primitiveVal
  | .num _ => .primitiveVal
  | .bool _ => .primitiveVal
  | .undef => .primitiveVal
  | .null => .primitiveVal
  | .record _ => .compositeVal
  | .tuple _ => .compositeVal
  | .func _ => .invalidVal
  | .obj => .invalidVal

/-- A value is internable when it does not classify as invalid. -/
def internable (v : JSVal) : Bool :=
  match classify v with
  | .invalidVal => false
  | _ => true

/-- Modelled from the spec: `validateProperty` from the missing `utils.js`.
Returns the value unchanged when it is internable; otherwise fails.  The
spec's Normalizer contract (§4.2) is `InvalidEntry(key, value)` /
`InvalidEntry(index, value)`, so the modelled validator is given the
location for error reporting. -/
def validateProperty (loc : String ⊕ Nat) (v : JSVal) : Except JSError JSVal :=
  if internable v then .ok v else .error (.invalidEntry loc v)

/-- Validation pass over a record's `(name, value)` properties, embedding the
`.map(([name, value]) => [name, validateProperty(value)])` step of
`createRecordFromObject` (errors propagate from the first offending entry,
as a thrown exception would). -/
def validateProperties : List (String × JSVal) → Except JSError (List (String × JSVal))
  | [] => .ok []
  | (n, v) :: rest =>
    match validateProperty (.inl n) v with
    | .error e => .error e
    | .ok v' =>
      match validateProperties rest with
      | .error e => .error e
      | .ok rest' => .ok ((n, v') :: rest')

/-- Modelled from the spec: the Tuple path of the Normalizer (§4.2, in the
missing `tuple.js`): classify each element in positional order, failing with
the offending index on the first invalid element.  `i` is the index of the
first element of the remaining list. -/
def validateElements (i : Nat) : List JSVal → Except JSError (List JSVal)
  | [] => .ok []
  | v :: rest =>
    if internable v then
      match validateElements (i + 1) rest with
      | .error e => .error e
      | .ok rest' => .ok (v :: rest')
    else .error (.invalidEntry (.inr i) v)

/-- The string a value contributes when a `[key, value]` entry array is
converted to a string by the host (`Array.prototype.join` with separator
`","`): `undefined` and `null` join as the empty string, records print via
`Record.prototype.toString` (`record.js` line 82), functions print their
source text, plain objects print as `"[object Object]"`. -/
def elementString : JSVal → String
  | .str s => s
  | .num n => toString n
  | .bool b => if b then "true" else "false"
  | .undef => ""
  | .null => ""
  | .record _ => "[record Record]"
  | .tuple _ => "[tuple Tuple]"
  | .func src => src
  | .obj => "[object Object]"

/-- The host string form of an entry array `[name, value]`: the comparator in
`createRecordFromObject` (record.js lines 49-53) applies `<` and `>` to the
whole entry arrays, which the host coerces to strings by joining the two
elements with `","`. -/
def entryToString (p : String × JSVal) : String :=
  p.1 ++ "," ++ elementString p.2

/-- Code-unit lexicographic order on character lists, as the host's abstract
relational comparison performs on strings. -/
def jsStrLtChars : List Char → List Char → Bool
  | [], [] => false
  | [], _ :: _ => true
  | _ :: _, [] => false
  | c₁ :: r₁, c₂ :: r₂ =>
    if c₁.val < c₂.val then true
    else if c₂.val < c₁.val then false
    else jsStrLtChars r₁ r₂

/-- The host's `<` on strings: lexicographic by code unit. -/
def jsStrLt (a b : String) : Bool :=
  jsStrLtChars a.data b.data

/-- The sort comparator of `createRecordFromObject` (record.js lines 49-53):
`a` and `b` are whole `[name, value]` entry arrays, so `a < b` compares
their joined string forms, not the names alone. -/
def sortComparator (a b : String × JSVal) : Int :=
  if jsStrLt (entryToString a) (entryToString b) then -1
  else if jsStrLt (entryToString b) (entryToString a) then 1
  else 0

/-- Insert into an already-sorted list, after all elements that compare
less-or-equal: the stable insertion step. -/
def insertSorted (cmp : α → α → Int) (x : α) : List α → List α
  | [] => [x]
  | y :: ys => if cmp y x ≤ 0 then y :: insertSorted cmp x ys else x :: y :: ys

/-- Stable sort by a comparator, as `Array.prototype.sort` (stable per the
language spec) behaves for a consistent comparator. -/
def stableSort (cmp : α → α → Int) (l : List α) : List α :=
  l.foldl (fun acc x => insertSorted cmp x acc) []

/-- The entry-normalization step of `createRecordFromObject` (record.js
lines 48-54): sort the enumerated entries with the entry-array comparator,
then validate each value. -/
def normalizeRecordEntries (fields : List (String × JSVal)) :
    Except JSError (List (String × JSVal)) :=
  validateProperties (stableSort sortComparator fields)

/-- A composite held in a store: its canonical entry sequence and whether it
has been frozen. -/
structure CompositeVal (α : Type) where
  entries : List α
  frozen : Bool
deriving DecidableEq, Repr

/-- Modelled from the spec: the Interning Graph (§4.3, in the missing
`interngraph.js`) at the level of its get-or-create contract: a mapping from
normalized entry sequences to the canonical composite instance (an id into
`store`), together with the allocator state.  The trie layout, weak
terminals and pruning affect only the memory footprint (spec §3) and are not
modelled. -/
structure InternGraph (α : Type) where
  graph : List (List α × Nat)
  store : List (Nat × CompositeVal α)
  nextId : Nat
deriving Repr

/-- Look up an entry sequence in the graph mapping. -/
def lookupGraph [DecidableEq α] : List (List α × Nat) → List α → Option Nat
  | [], _ => none
  | (es, id) :: rest, k => if es = k then some id else lookupGraph rest k

/-- Look up a composite by id in a store. -/
def lookupStore : List (Nat × CompositeVal α) → Nat → Option (CompositeVal α)
  | [], _ => none
  | (i, cv) :: rest, id => if i = id then some cv else lookupStore rest id

/-- The shared shape of `createFreshRecordFromProperties` (record.js lines
27-35) and its tuple counterpart: re-validate every entry (the factories
call `validateProperty` again on each value), then allocate a fresh, frozen,
provenance-marked composite at the next id.  On a validation failure the
partially built host object is discarded and nothing is allocated. -/
def createFreshComposite (validate : List α → Except JSError (List α))
    (props : List α) (g : InternGraph α) : InternGraph α × Except JSError Nat :=
  match validate props with
  | .error e => (g, .error e)
  | .ok props' =>
    ({ graph := g.graph
       store := (g.nextId, { entries := props', frozen := true }) :: g.store
       nextId := g.nextId + 1 }, .ok g.nextId)

/-- Modelled from the spec: `InternGraph.get` (§4.3, missing
`interngraph.js`).  Walk the graph for the normalized entry sequence; on a
hit return the canonical instance, otherwise invoke the creator passed to
the `InternGraph` constructor and record its result as the terminal for
this sequence. -/
def InternGraph.get [DecidableEq α] (g : InternGraph α)
    (creator : List α → InternGraph α → InternGraph α × Except JSError Nat)
    (entries : List α) : InternGraph α × Except JSError Nat :=
  match lookupGraph g.graph entries with
  | some id => (g, .ok id)
  | none =>
    match creator entries g with
    | (g', .ok id) => ({ g' with graph := (entries, id) :: g'.graph }, .ok id)
    | (g', .error e) => (g', .error e)

/-- The record factory handed to `RECORD_GRAPH` (record.js line 37):
`createFreshRecordFromProperties` assigns each validated property and
freezes the result. -/
def createFreshRecordFromProperties (props : List (String × JSVal))
    (g : InternGraph (String × JSVal)) :
    InternGraph (String × JSVal) × Except JSError Nat :=
  createFreshComposite validateProperties props g

/-- `RECORD_GRAPH.get(properties)` with the record factory installed
(record.js lines 37 and 56). -/
def recordIntern (props : List (String × JSVal)) (g : InternGraph (String × JSVal)) :
    InternGraph (String × JSVal) × Except JSError Nat :=
  g.get createFreshRecordFromProperties props

/-- Modelled from the spec: the tuple factory (missing `tuple.js`),
symmetric to the record factory: re-validate elements positionally, then
allocate a fresh frozen tuple. -/
def createFreshTupleFromIterable (vals : List JSVal) (g : InternGraph JSVal) :
    InternGraph JSVal × Except JSError Nat :=
  createFreshComposite (validateElements 0) vals g

/-- `TUPLE_GRAPH.get(values)` with the tuple factory installed (modelled
from the spec; `tuple.js` is not part of the available source). -/
def tupleIntern (vals : List JSVal) (g : InternGraph JSVal) :
    InternGraph JSVal × Except JSError Nat :=
  g.get createFreshTupleFromIterable vals

/-- The process-wide engine state: one interning graph per composite kind
(spec §3, Root: "process-wide singleton per composite kind"). -/
structure PState where
  recordGraph : InternGraph (String × JSVal)
  tupleGraph : InternGraph JSVal
deriving Repr

/-- The state at module initialization: both graphs empty. -/
def emptyState : PState :=
  { recordGraph := { graph := [], store := [], nextId := 0 }
    tupleGraph := { graph := [], store := [], nextId := 0 } }

/-- An argument passed to `Record`: either a plain host object together with
its own enumerable string-keyed fields in enumeration order, or any other
JavaScript value. -/
inductive JSArg where
  | v (x : JSVal)
  | o (fields : List (String × JSVal))
deriving DecidableEq, Repr

/-- The `isObject` test applied to a constructor argument. -/
def isObjectArg : JSArg → Bool
  | .o _ => true
  | .v x => isObject x

/-- Pair a tuple's elements with their stringified indices, as
`Object.entries` enumerates a tuple's own indexed properties. -/
def indexEntries (i : Nat) : List JSVal → List (String × JSVal)
  | [] => []
  | v :: rest => (toString i, v) :: indexEntries (i + 1) rest

/-- `Object.entries(value)` on a constructor argument (record.js line 48):
a plain object's own enumerable string-keyed fields in enumeration order; a
record's stored entries (they were assigned as ordinary enumerable
properties); a tuple's elements keyed by index.  Non-objects never reach
this step (the `isObject` guard throws first). -/
def entriesOfArg (st : PState) : JSArg → List (String × JSVal)
  | .o fields => fields
  | .v (.record id) =>
    match lookupStore st.recordGraph.store id with
    | some cv => cv.entries
    | none => []
  | .v (.tuple id) =>
    match lookupStore st.tupleGraph.store id with
    | some cv => indexEntries 0 cv.entries
    | none => []
  | .v _ => []

/-- Embedding of `createRecordFromObject` (record.js lines 39-57): assert
host capabilities, reject non-object arguments with a plain error, enumerate
and sort the entries with the entry-array comparator, validate each value,
then intern through `RECORD_GRAPH`. -/
def createRecordFromObject (feats : Features) (arg : JSArg) (st : PState) :
    PState × Except JSError Nat :=
  match assertFeatures feats with
  | .error e => (st, .error e)
  | .ok _ =>
    if isObjectArg arg then
      match normalizeRecordEntries (entriesOfArg st arg) with
      | .error e => (st, .error e)
      | .ok props =>
        match recordIntern props st.recordGraph with
        | (g', r) => ({ st with recordGraph := g' }, r)
    else (st, .error (.plain "invalid value, expected object argument"))

/-- The public `Record` constructor (record.js lines 59-61). -/
def Record (feats : Features) (arg : JSArg) (st : PState) :
    PState × Except JSError Nat :=
  createRecordFromObject feats arg st

/-- Assign a field on a plain-object field list: overwrite an existing key
in place, otherwise append (host property-set semantics on enumeration
order). -/
def setField : List (String × JSVal) → String → JSVal → List (String × JSVal)
  | [], k, v => [(k, v)]
  | (k', v') :: rest, k, v =>
    if k' = k then (k', v) :: rest else (k', v') :: setField rest k v

/-- Modelled from the spec: `objectFromEntries` from the missing `utils.js`:
build a host object holding the given fields ("the same path fed from an
explicit key/value sequence", spec §4.4); a later duplicate key overwrites
the earlier value while keeping the first insertion's enumeration
position. -/
def objectFromEntries (pairs : List (String × JSVal)) : List (String × JSVal) :=
  pairs.foldl (fun acc p => setField acc p.1 p.2) []

/-- `Record.fromEntries(iterator)` (record.js lines 73-75):
`createRecordFromObject(objectFromEntries(iterator))`. -/
def Record.fromEntries (feats : Features) (pairs : List (String × JSVal))
    (st : PState) : PState × Except JSError Nat :=
  createRecordFromObject feats (.o (objectFromEntries pairs)) st

/-- Modelled from the spec: `createTupleFromIterableObject` (missing
`tuple.js`): assert capabilities, take the positional sequence as-is
(§4.2: "order is the contract, not sorted"), validate each element, intern
through `TUPLE_GRAPH`. -/
def createTupleFromIterable (feats : Features) (vals : List JSVal) (st : PState) :
    PState × Except JSError Nat :=
  match assertFeatures feats with
  | .error e => (st, .error e)
  | .ok _ =>
    match validateElements 0 vals with
    | .error e => (st, .error e)
    | .ok elems =>
      match tupleIntern elems st.tupleGraph with
      | (g', r) => ({ st with tupleGraph := g' }, r)

/-- The public `Tuple` constructor (modelled from the spec; `tuple.js` is
not part of the available source). -/
def Tuple (feats : Features) (vals : List JSVal) (st : PState) :
    PState × Except JSError Nat :=
  createTupleFromIterable feats vals st

/-- The spec's data-model invariant (§3) for one interning graph, together
with the bookkeeping facts that make it inductive: entry sequences are
canonical (equal iff the same id), all graph and store ids are below the
allocator cursor, every stored composite is frozen, and every graph terminal
resolves in the store. -/
structure GraphInv (g : InternGraph α) : Prop where
  canonical : ∀ e₁ i₁ e₂ i₂, (e₁, i₁) ∈ g.graph → (e₂, i₂) ∈ g.graph → (e₁ = e₂ ↔ i₁ = i₂)
  graphBound : ∀ e i, (e, i) ∈ g.graph → i < g.nextId
  storeBound : ∀ i cv, (i, cv) ∈ g.store → i < g.nextId
  frozenAll : ∀ i cv, (i, cv) ∈ g.store → cv.frozen = true
  terminal : ∀ e i, (e, i) ∈ g.graph → ∃ cv, lookupStore g.store i = some cv

/-! ### Mutation attempts and arbitrary operation sequences -/

/-- Replace the composite stored at `id`, leaving other slots alone. -/
def updateStore : List (Nat × CompositeVal α) → Nat → CompositeVal α → List (Nat × CompositeVal α)
  | [], _, _ => []
  | (i, cv) :: rest, id, newCv =>
    if i = id then (i, newCv) :: rest else (i, cv) :: updateStore rest id newCv

/-- Remove a field from a field list. -/
def removeField : List (String × JSVal) → String → List (String × JSVal)
  | [], _ => []
  | (k', v') :: rest, k => if k' = k then rest else (k', v') :: removeField rest k

/-- Modelled from the spec: a host attempt to assign a field on a record
after construction.  Records are frozen (`Object.freeze` in
`createFreshRecordFromProperties`, record.js line 32), and per the spec a
mutation of a frozen value "either is rejected or has no observable
effect"; an unfrozen object would be mutated in place. -/
def setRecordField (st : PState) (id : Nat) (k : String) (v : JSVal) : PState :=
  match lookupStore st.recordGraph.store id with
  | none => st
  | some cv =>
    if cv.frozen then st
    else
      let newCv : CompositeVal (String × JSVal) := { cv with entries := setField cv.entries k v }
      let newGraph := { st.recordGraph with store := updateStore st.recordGraph.store id newCv }
      { st with recordGraph := newGraph }

/-- Modelled from the spec: a host attempt to delete a field of a record
after construction; rejected (no effect) on a frozen record. -/
def deleteRecordField (st : PState) (id : Nat) (k : String) : PState :=
  match lookupStore st.recordGraph.store id with
  | none => st
  | some cv =>
    if cv.frozen then st
    else
      let newCv : CompositeVal (String × JSVal) := { cv with entries := removeField cv.entries k }
      let newGraph := { st.recordGraph with store := updateStore st.recordGraph.store id newCv }
      { st with recordGraph := newGraph }

/-- Modelled from the spec: a host attempt to overwrite a tuple element
after construction; rejected (no effect) on a frozen tuple. -/
def setTupleElement (st : PState) (id : Nat) (i : Nat) (v : JSVal) : PState :=
  match lookupStore st.tupleGraph.store id with
  | none => st
  | some cv =>
    if cv.frozen then st
    else
      let newCv : CompositeVal JSVal := { cv with entries := cv.entries.set i v }
      let newGraph := { st.tupleGraph with store := updateStore st.tupleGraph.store id newCv }
      { st with tupleGraph := newGraph }

/-- An observable operation against the engine: a constructor call or an
attempted post-construction mutation. -/
inductive Op where
  | mkRecord (arg : JSArg)
  | mkRecordFromEntries (pairs : List (String × JSVal))
  | mkTuple (vals : List JSVal)
  | trySetField (id : Nat) (k : String) (v : JSVal)
  | tryDeleteField (id : Nat) (k : String)
  | trySetElement (id : Nat) (i : Nat) (v : JSVal)

/-- Run one operation, keeping only the resulting state. -/
def execOp (feats : Features) (st : PState) : Op → PState
  | .mkRecord arg => (createRecordFromObject feats arg st).1
  | .mkRecordFromEntries pairs => (Record.fromEntries feats pairs st).1
  | .mkTuple vals => (createTupleFromIterable feats vals st).1
  | .trySetField id k v => setRecordField st id k v
  | .tryDeleteField id k => deleteRecordField st id k
  | .trySetElement id i v => setTupleElement st id i v

/-- Run a sequence of operations. -/
def execOps (feats : Features) : PState → List Op → PState
  | st, [] => st
  | st, op :: ops => execOps feats (execOp feats st op) ops

/-- Both kind-roots satisfy the interning invariant. -/
def StateInv (st : PState) : Prop :=
  GraphInv st.recordGraph ∧ GraphInv st.tupleGraph


/-- A fully capable host. -/
def allFeatures : Features :=
  { weakRefs := true, freeze := true, stableIdentity := true }

/-! ### Basic lemmas about validation, sorting and lookup -/

theorem validateProperties_ok_eq : ∀ {l w : List (String × JSVal)},
    validateProperties l = .ok w → w = l := by
  intro l
  induction l with
  | nil => intro w h; simpa [validateProperties] using h.symm
  | cons p rest ih =>
    intro w h
    obtain ⟨n, v⟩ := p
    unfold validateProperties validateProperty at h
    by_cases hv : internable v
    · simp only [hv, if_true] at h
      cases hrest : validateProperties rest with
      | error e => rw [hrest] at h; exact absurd h (by simp)
      | ok rest' => rw [hrest] at h; simp at h; rw [← h, ih hrest]
    · simp [hv] at h

theorem validateProperties_ok_of_all {l : List (String × JSVal)}
    (h : ∀ p ∈ l, internable p.2 = true) : validateProperties l = .ok l := by
  induction l with
  | nil => rfl
  | cons p rest ih =>
    obtain ⟨n, v⟩ := p
    have hv : internable v = true := h (n, v) (List.mem_cons_self _ _)
    have hrest := ih (fun q hq => h q (List.mem_cons_of_mem _ hq))
    simp [validateProperties, validateProperty, hv, hrest]

theorem validateProperties_error_of_bad {l : List (String × JSVal)}
    (h : ∃ p ∈ l, internable p.2 = false) :
    ∃ k v, validateProperties l = .error (.invalidEntry (.inl k) v) ∧
      (k, v) ∈ l ∧ internable v = false := by
  induction l with
  | nil => simp at h
  | cons p rest ih =>
    obtain ⟨n, v⟩ := p
    by_cases hv : internable v
    · obtain ⟨q, hq, hbad⟩ := h
      rcases List.mem_cons.mp hq with rfl | hmem
      · rw [hv] at hbad; cases hbad
      · obtain ⟨k, w, herr, hw, hbadw⟩ := ih ⟨q, hmem, hbad⟩
        exact ⟨k, w, by simp [validateProperties, validateProperty, hv, herr],
          List.mem_cons_of_mem _ hw, hbadw⟩
    · refine ⟨n, v, ?_, List.mem_cons_self _ _, by simpa using hv⟩
      simp [validateProperties, validateProperty, hv]

theorem validateElements_ok_eq : ∀ {i : Nat} {l w : List JSVal},
    validateElements i l = .ok w → w = l := by
  intro i l
  induction l generalizing i with
  | nil => intro w h; simpa [validateElements] using h.symm
  | cons v rest ih =>
    intro w h
    unfold validateElements at h
    by_cases hv : internable v
    · simp only [hv, if_true] at h
      cases hrest : validateElements (i + 1) rest with
      | error e => rw [hrest] at h; exact absurd h (by simp)
      | ok rest' => rw [hrest] at h; simp at h; rw [← h, ih hrest]
    · simp [hv] at h

theorem validateElements_ok_of_all {l : List JSVal} (i : Nat)
    (h : ∀ v ∈ l, internable v = true) : validateElements i l = .ok l := by
  induction l generalizing i with
  | nil => rfl
  | cons v rest ih =>
    have hv : internable v = true := h v (List.mem_cons_self _ _)
    have hrest := ih (i + 1) (fun w hw => h w (List.mem_cons_of_mem _ hw))
    simp [validateElements, hv, hrest]

theorem validateElements_error_of_bad {l : List JSVal} (i : Nat)
    (h : ∃ v ∈ l, internable v = false) :
    ∃ j v, validateElements i l = .error (.invalidEntry (.inr (i + j)) v) ∧
      l.get? j = some v ∧ internable v = false := by
  induction l generalizing i with
  | nil => simp at h
  | cons v rest ih =>
    by_cases hv : internable v
    · obtain ⟨w, hw, hbad⟩ := h
      rcases List.mem_cons.mp hw with rfl | hmem
      · rw [hv] at hbad; cases hbad
      · obtain ⟨j, u, herr, hu, hbadu⟩ := ih (i + 1) ⟨w, hmem, hbad⟩
        refine ⟨j + 1, u, ?_, by simpa using hu, hbadu⟩
        have : i + 1 + j = i + (j + 1) := by omega
        rw [this] at herr
        simp [validateElements, hv, herr]
    · exact ⟨0, v, by simp [validateElements, hv], rfl, by simpa using hv⟩

theorem mem_insertSorted {cmp : α → α → Int} {x y : α} : ∀ {l : List α},
    y ∈ insertSorted cmp x l ↔ y = x ∨ y ∈ l := by
  intro l
  induction l with
  | nil => simp [insertSorted]
  | cons z zs ih =>
    by_cases h : cmp z x ≤ 0
    · simp only [insertSorted, if_pos h, List.mem_cons, ih]
      tauto
    · simp only [insertSorted, if_neg h, List.mem_cons]

theorem mem_foldl_insertSorted {cmp : α → α → Int} {y : α} :
    ∀ (l acc : List α),
      (y ∈ l.foldl (fun acc x => insertSorted cmp x acc) acc) ↔ y ∈ acc ∨ y ∈ l := by
  intro l
  induction l with
  | nil => simp
  | cons x xs ih =>
    intro acc
    rw [List.foldl_cons, ih, mem_insertSorted]
    simp only [List.mem_cons]
    tauto

theorem mem_stableSort {cmp : α → α → Int} {y : α} {l : List α} :
    y ∈ stableSort cmp l ↔ y ∈ l := by
  unfold stableSort
  rw [mem_foldl_insertSorted]
  simp

theorem lookupGraph_some_mem [DecidableEq α] :
    ∀ {l : List (List α × Nat)} {k : List α} {i : Nat},
      lookupGraph l k = some i → (k, i) ∈ l := by
  intro l
  induction l with
  | nil => intro k i h; simp [lookupGraph] at h
  | cons p rest ih =>
    intro k i h
    obtain ⟨es, id⟩ := p
    unfold lookupGraph at h
    by_cases he : es = k
    · simp only [he, if_pos rfl] at h
      cases h
      subst he
      exact List.mem_cons_self _ _
    · simp only [if_neg he] at h
      exact List.mem_cons_of_mem _ (ih h)

theorem lookupGraph_none_not_mem [DecidableEq α] :
    ∀ {l : List (List α × Nat)} {k : List α},
      lookupGraph l k = none → ∀ i, (k, i) ∉ l := by
  intro l
  induction l with
  | nil => intro k _ i h; simp at h
  | cons p rest ih =>
    intro k h i hmem
    obtain ⟨es, id⟩ := p
    unfold lookupGraph at h
    by_cases he : es = k
    · simp [he] at h
    · simp only [if_neg he] at h
      rcases List.mem_cons.mp hmem with heq | hmem'
      · exact he (congrArg Prod.fst heq).symm
      · exact ih h i hmem'

theorem lookupStore_some_mem :
    ∀ {s : List (Nat × CompositeVal α)} {id : Nat} {cv : CompositeVal α},
      lookupStore s id = some cv → (id, cv) ∈ s := by
  intro s
  induction s with
  | nil => intro id cv h; simp [lookupStore] at h
  | cons p rest ih =>
    intro id cv h
    obtain ⟨i, w⟩ := p
    unfold lookupStore at h
    by_cases he : i = id
    · simp only [he, if_pos rfl] at h
      cases h
      rw [← he]
      exact List.mem_cons_self _ _
    · simp only [if_neg he] at h
      exact List.mem_cons_of_mem _ (ih h)

/-! ### The interning invariant and its preservation -/


theorem GraphInv.empty : GraphInv { graph := [], store := [], nextId := 0 : InternGraph α } := by
  constructor <;> intro _ <;> simp

theorem lookupGraph_of_mem_func [DecidableEq α] :
    ∀ {l : List (List α × Nat)},
      (∀ k i₁ i₂, (k, i₁) ∈ l → (k, i₂) ∈ l → i₁ = i₂) →
      ∀ {k : List α} {i : Nat}, (k, i) ∈ l → lookupGraph l k = some i := by
  intro l
  induction l with
  | nil => intro _ k i h; simp at h
  | cons p rest ih =>
    intro func k i h
    obtain ⟨es, id⟩ := p
    unfold lookupGraph
    by_cases he : es = k
    · subst he
      have : (es, id) ∈ (es, id) :: rest := List.mem_cons_self _ _
      rw [if_pos rfl]
      exact congrArg some (func es id i this h).symm ▸ rfl
    · rw [if_neg he]
      rcases List.mem_cons.mp h with heq | hmem
      · exact absurd (congrArg Prod.fst heq).symm he
      · exact ih (fun k i₁ i₂ h₁ h₂ =>
          func k i₁ i₂ (List.mem_cons_of_mem _ h₁) (List.mem_cons_of_mem _ h₂)) hmem

theorem GraphInv.func {g : InternGraph α} (inv : GraphInv g) {es : List α} {i₁ i₂ : Nat}
    (h₁ : (es, i₁) ∈ g.graph) (h₂ : (es, i₂) ∈ g.graph) : i₁ = i₂ :=
  (inv.canonical _ _ _ _ h₁ h₂).mp rfl

theorem lookupGraph_of_mem [DecidableEq α] {g : InternGraph α} (inv : GraphInv g)
    {es : List α} {i : Nat} (h : (es, i) ∈ g.graph) : lookupGraph g.graph es = some i :=
  lookupGraph_of_mem_func (fun _ _ _ h₁ h₂ => inv.func h₁ h₂) h

theorem lookupStore_cons_ne {s : List (Nat × CompositeVal α)} {i id : Nat}
    {cv : CompositeVal α} (h : i ≠ id) :
    lookupStore ((i, cv) :: s) id = lookupStore s id := by
  simp [lookupStore, h]

theorem internGet_hit [DecidableEq α] {g : InternGraph α}
    {creator : List α → InternGraph α → InternGraph α × Except JSError Nat}
    {es : List α} {i : Nat} (h : lookupGraph g.graph es = some i) :
    g.get creator es = (g, .ok i) := by
  simp [InternGraph.get, h]

theorem internGet_hit_of_mem [DecidableEq α] {g : InternGraph α}
    {creator : List α → InternGraph α → InternGraph α × Except JSError Nat}
    {es : List α} {i : Nat} (inv : GraphInv g) (h : (es, i) ∈ g.graph) :
    g.get creator es = (g, .ok i) :=
  internGet_hit (lookupGraph_of_mem inv h)

theorem internGet_miss_ok [DecidableEq α] {g : InternGraph α}
    {validate : List α → Except JSError (List α)} {es props' : List α}
    (hl : lookupGraph g.graph es = none) (hv : validate es = .ok props') :
    g.get (createFreshComposite validate) es =
      ({ graph := (es, g.nextId) :: g.graph
         store := (g.nextId, { entries := props', frozen := true }) :: g.store
         nextId := g.nextId + 1 }, .ok g.nextId) := by
  simp [InternGraph.get, hl, createFreshComposite, hv]

theorem internGet_miss_err [DecidableEq α] {g : InternGraph α}
    {validate : List α → Except JSError (List α)} {es : List α} {e : JSError}
    (hl : lookupGraph g.graph es = none) (hv : validate es = .error e) :
    g.get (createFreshComposite validate) es = (g, .error e) := by
  simp [InternGraph.get, hl, createFreshComposite, hv]

/-- Full case description of a get-or-create step with an allocating
creator. -/
theorem internGet_cases [DecidableEq α] (g : InternGraph α)
    (validate : List α → Except JSError (List α)) (es : List α) :
    (∃ i, lookupGraph g.graph es = some i ∧
      g.get (createFreshComposite validate) es = (g, .ok i)) ∨
    (lookupGraph g.graph es = none ∧ ∃ props',
      validate es = .ok props' ∧
      g.get (createFreshComposite validate) es =
        ({ graph := (es, g.nextId) :: g.graph
           store := (g.nextId, { entries := props', frozen := true }) :: g.store
           nextId := g.nextId + 1 }, .ok g.nextId)) ∨
    (lookupGraph g.graph es = none ∧ ∃ e,
      validate es = .error e ∧
      g.get (createFreshComposite validate) es = (g, .error e)) := by
  cases hl : lookupGraph g.graph es with
  | some i => exact Or.inl ⟨i, rfl, internGet_hit hl⟩
  | none =>
    cases hv : validate es with
    | ok props' => exact Or.inr (Or.inl ⟨rfl, props', rfl, internGet_miss_ok hl hv⟩)
    | error e => exact Or.inr (Or.inr ⟨rfl, e, rfl, internGet_miss_err hl hv⟩)

theorem internGet_inv [DecidableEq α] {g : InternGraph α}
    {validate : List α → Except JSError (List α)} {es : List α} (inv : GraphInv g) :
    GraphInv (g.get (createFreshComposite validate) es).1 := by
  rcases internGet_cases g validate es with ⟨i, _, heq⟩ | ⟨hl, props', hv, heq⟩ | ⟨hl, e, hv, heq⟩
  · rw [heq]; exact inv
  · rw [heq]
    dsimp only
    constructor
    · intro e₁ i₁ e₂ i₂ h₁ h₂
      rcases List.mem_cons.mp h₁ with h₁ | h₁ <;> rcases List.mem_cons.mp h₂ with h₂ | h₂
      · rw [Prod.mk.injEq] at h₁ h₂
        rw [h₁.1, h₁.2, h₂.1, h₂.2]
        simp
      · rw [Prod.mk.injEq] at h₁
        rw [h₁.1, h₁.2]
        have hne : es ≠ e₂ := fun hc => lookupGraph_none_not_mem hl i₂ (by rw [hc]; exact h₂)
        have hlt : i₂ < g.nextId := inv.graphBound _ _ h₂
        constructor
        · intro hc; exact absurd hc hne
        · intro hc; exact absurd hc (by omega)
      · rw [Prod.mk.injEq] at h₂
        rw [h₂.1, h₂.2]
        have hne : e₁ ≠ es := fun hc => lookupGraph_none_not_mem hl i₁ (by rw [← hc]; exact h₁)
        have hlt : i₁ < g.nextId := inv.graphBound _ _ h₁
        constructor
        · intro hc; exact absurd hc hne
        · intro hc; exact absurd hc (by omega)
      · exact inv.canonical _ _ _ _ h₁ h₂
    · intro e i h
      dsimp only at h ⊢
      rcases List.mem_cons.mp h with h | h
      · rw [Prod.mk.injEq] at h; rw [h.2]; omega
      · have := inv.graphBound _ _ h; omega
    · intro i cv h
      dsimp only at h ⊢
      rcases List.mem_cons.mp h with h | h
      · rw [Prod.mk.injEq] at h; rw [h.1]; omega
      · have := inv.storeBound _ _ h; omega
    · intro i cv h
      dsimp only at h
      rcases List.mem_cons.mp h with h | h
      · rw [Prod.mk.injEq] at h; rw [h.2]
      · exact inv.frozenAll _ _ h
    · intro e i h
      dsimp only at h ⊢
      rcases List.mem_cons.mp h with h | h
      · rw [Prod.mk.injEq] at h
        rw [h.2]
        exact ⟨{ entries := props', frozen := true }, by simp [lookupStore]⟩
      · have hlt : i < g.nextId := inv.graphBound _ _ h
        obtain ⟨cv, hcv⟩ := inv.terminal _ _ h
        exact ⟨cv, by rw [lookupStore_cons_ne (by omega)]; exact hcv⟩
  · rw [heq]; exact inv

theorem internGet_ok_mem [DecidableEq α] {g g' : InternGraph α}
    {validate : List α → Except JSError (List α)} {es : List α} {i : Nat}
    (h : g.get (createFreshComposite validate) es = (g', .ok i)) :
    (es, i) ∈ g'.graph := by
  rcases internGet_cases g validate es with ⟨j, hl, heq⟩ | ⟨hl, props', hv, heq⟩ | ⟨hl, e, hv, heq⟩
  · rw [heq] at h
    obtain ⟨h₁, h₂⟩ := Prod.mk.injEq .. ▸ h
    injection h₂ with h₂
    subst h₁; subst h₂
    exact lookupGraph_some_mem hl
  · rw [heq] at h
    obtain ⟨h₁, h₂⟩ := Prod.mk.injEq .. ▸ h
    injection h₂ with h₂
    subst h₁; subst h₂
    exact List.mem_cons_self _ _
  · rw [heq] at h
    obtain ⟨_, h₂⟩ := Prod.mk.injEq .. ▸ h
    exact absurd h₂ (by simp)

theorem internGet_graph_mono [DecidableEq α] {g : InternGraph α}
    {validate : List α → Except JSError (List α)} {es e : List α} {i : Nat}
    (h : (e, i) ∈ g.graph) :
    (e, i) ∈ (g.get (createFreshComposite validate) es).1.graph := by
  rcases internGet_cases g validate es with ⟨j, _, heq⟩ | ⟨hl, props', hv, heq⟩ | ⟨hl, e', hv, heq⟩
  · rw [heq]; exact h
  · rw [heq]; exact List.mem_cons_of_mem _ h
  · rw [heq]; exact h

theorem internGet_store_mono [DecidableEq α] {g : InternGraph α}
    {validate : List α → Except JSError (List α)} {es : List α} {i : Nat}
    {cv : CompositeVal α} (inv : GraphInv g) (h : lookupStore g.store i = some cv) :
    lookupStore (g.get (createFreshComposite validate) es).1.store i = some cv := by
  rcases internGet_cases g validate es with ⟨j, _, heq⟩ | ⟨hl, props', hv, heq⟩ | ⟨hl, e', hv, heq⟩
  · rw [heq]; exact h
  · rw [heq]
    have hlt : i < g.nextId := inv.storeBound _ _ (lookupStore_some_mem h)
    rw [lookupStore_cons_ne (by omega)]
    exact h
  · rw [heq]; exact h


theorem StateInv.emptyState : StateInv emptyState :=
  ⟨GraphInv.empty, GraphInv.empty⟩

/-- A `createRecordFromObject` call either leaves the state alone (failure
before the graph) or replaces the record graph by the result of one
get-or-create step. -/
theorem createRecordFromObject_state (feats : Features) (arg : JSArg) (st : PState) :
    (createRecordFromObject feats arg st).1 = st ∨
    ∃ props, (createRecordFromObject feats arg st).1 =
      { st with recordGraph := (recordIntern props st.recordGraph).1 } := by
  unfold createRecordFromObject
  cases assertFeatures feats with
  | error e => exact Or.inl rfl
  | ok u =>
    cases ho : isObjectArg arg with
    | false => exact Or.inl (by simp [ho])
    | true =>
      simp only [ho, if_true]
      cases hn : normalizeRecordEntries (entriesOfArg st arg) with
      | error e => exact Or.inl rfl
      | ok props =>
        refine Or.inr ⟨props, ?_⟩
        rcases hr : recordIntern props st.recordGraph with ⟨g', r⟩
        dsimp only
        rw [hr]

/-- A `createTupleFromIterable` call either leaves the state alone or
replaces the tuple graph by the result of one get-or-create step. -/
theorem createTupleFromIterable_state (feats : Features) (vals : List JSVal) (st : PState) :
    (createTupleFromIterable feats vals st).1 = st ∨
    ∃ elems, (createTupleFromIterable feats vals st).1 =
      { st with tupleGraph := (tupleIntern elems st.tupleGraph).1 } := by
  unfold createTupleFromIterable
  cases assertFeatures feats with
  | error e => exact Or.inl rfl
  | ok u =>
    cases hn : validateElements 0 vals with
    | error e => exact Or.inl rfl
    | ok elems =>
      refine Or.inr ⟨elems, ?_⟩
      rcases hr : tupleIntern elems st.tupleGraph with ⟨g', r⟩
      dsimp only
      rw [hr]

theorem recordIntern_eq (props : List (String × JSVal)) (g : InternGraph (String × JSVal)) :
    recordIntern props g = g.get (createFreshComposite validateProperties) props := rfl

theorem tupleIntern_eq (vals : List JSVal) (g : InternGraph JSVal) :
    tupleIntern vals g = g.get (createFreshComposite (validateElements 0)) vals := rfl

/-- Exact description of a successful `createRecordFromObject` call. -/
theorem createRecordFromObject_ok {feats : Features} {arg : JSArg} {st st' : PState}
    {id : Nat} (h : createRecordFromObject feats arg st = (st', .ok id)) :
    assertFeatures feats = .ok () ∧ isObjectArg arg = true ∧
    ∃ props g', normalizeRecordEntries (entriesOfArg st arg) = .ok props ∧
      recordIntern props st.recordGraph = (g', .ok id) ∧
      st' = { st with recordGraph := g' } := by
  unfold createRecordFromObject at h
  cases hf : assertFeatures feats with
  | error e => rw [hf] at h; exact absurd (congrArg Prod.snd h) (by simp)
  | ok u =>
    rw [hf] at h
    cases u
    cases ho : isObjectArg arg with
    | false => simp only [ho, Bool.false_eq_true, if_false] at h
               exact absurd (congrArg Prod.snd h) (by simp)
    | true =>
      simp only [ho, if_true] at h
      cases hn : normalizeRecordEntries (entriesOfArg st arg) with
      | error e => rw [hn] at h; exact absurd (congrArg Prod.snd h) (by simp)
      | ok props =>
        rw [hn] at h
        dsimp only at h
        rcases hr : recordIntern props st.recordGraph with ⟨g', r⟩
        rw [hr] at h
        dsimp only at h
        rw [Prod.mk.injEq] at h
        obtain ⟨h₁, h₂⟩ := h
        exact ⟨rfl, rfl, props, g', rfl, by rw [hr, h₂], h₁.symm⟩

/-- Exact description of a successful `createTupleFromIterable` call. -/
theorem createTupleFromIterable_ok {feats : Features} {vals : List JSVal}
    {st st' : PState} {id : Nat}
    (h : createTupleFromIterable feats vals st = (st', .ok id)) :
    assertFeatures feats = .ok () ∧
    ∃ elems g', validateElements 0 vals = .ok elems ∧
      tupleIntern elems st.tupleGraph = (g', .ok id) ∧
      st' = { st with tupleGraph := g' } := by
  unfold createTupleFromIterable at h
  cases hf : assertFeatures feats with
  | error e => rw [hf] at h; exact absurd (congrArg Prod.snd h) (by simp)
  | ok u =>
    rw [hf] at h
    cases u
    cases hn : validateElements 0 vals with
    | error e => rw [hn] at h; exact absurd (congrArg Prod.snd h) (by simp)
    | ok elems =>
      rw [hn] at h
      dsimp only at h
      rcases hr : tupleIntern elems st.tupleGraph with ⟨g', r⟩
      rw [hr] at h
      dsimp only at h
      rw [Prod.mk.injEq] at h
      obtain ⟨h₁, h₂⟩ := h
      exact ⟨rfl, elems, g', rfl, by rw [hr, h₂], h₁.symm⟩

theorem createRecordFromObject_inv {feats : Features} {arg : JSArg} {st : PState}
    (inv : StateInv st) : StateInv (createRecordFromObject feats arg st).1 := by
  rcases createRecordFromObject_state feats arg st with h | ⟨props, h⟩
  · rw [h]; exact inv
  · rw [h]
    exact ⟨by rw [recordIntern_eq]; exact internGet_inv inv.1, inv.2⟩

theorem createTupleFromIterable_inv {feats : Features} {vals : List JSVal} {st : PState}
    (inv : StateInv st) : StateInv (createTupleFromIterable feats vals st).1 := by
  rcases createTupleFromIterable_state feats vals st with h | ⟨elems, h⟩
  · rw [h]; exact inv
  · rw [h]
    exact ⟨inv.1, by rw [tupleIntern_eq]; exact internGet_inv inv.2⟩

theorem setRecordField_eq_of_inv {st : PState} {id : Nat} {k : String} {v : JSVal}
    (inv : StateInv st) : setRecordField st id k v = st := by
  unfold setRecordField
  cases hl : lookupStore st.recordGraph.store id with
  | none => rfl
  | some cv =>
    have hf : cv.frozen = true := inv.1.frozenAll _ _ (lookupStore_some_mem hl)
    simp [hf]

theorem deleteRecordField_eq_of_inv {st : PState} {id : Nat} {k : String}
    (inv : StateInv st) : deleteRecordField st id k = st := by
  unfold deleteRecordField
  cases hl : lookupStore st.recordGraph.store id with
  | none => rfl
  | some cv =>
    have hf : cv.frozen = true := inv.1.frozenAll _ _ (lookupStore_some_mem hl)
    simp [hf]

theorem setTupleElement_eq_of_inv {st : PState} {id i : Nat} {v : JSVal}
    (inv : StateInv st) : setTupleElement st id i v = st := by
  unfold setTupleElement
  cases hl : lookupStore st.tupleGraph.store id with
  | none => rfl
  | some cv =>
    have hf : cv.frozen = true := inv.2.frozenAll _ _ (lookupStore_some_mem hl)
    simp [hf]

theorem execOp_inv (feats : Features) (op : Op) {st : PState} (inv : StateInv st) :
    StateInv (execOp feats st op) := by
  cases op with
  | mkRecord arg => exact createRecordFromObject_inv inv
  | mkRecordFromEntries pairs => exact createRecordFromObject_inv inv
  | mkTuple vals => exact createTupleFromIterable_inv inv
  | trySetField id k v => rw [execOp, setRecordField_eq_of_inv inv]; exact inv
  | tryDeleteField id k => rw [execOp, deleteRecordField_eq_of_inv inv]; exact inv
  | trySetElement id i v => rw [execOp, setTupleElement_eq_of_inv inv]; exact inv

theorem execOp_record_store (feats : Features) (op : Op) {st : PState} {i : Nat}
    {cv : CompositeVal (String × JSVal)} (inv : StateInv st)
    (h : lookupStore st.recordGraph.store i = some cv) :
    lookupStore (execOp feats st op).recordGraph.store i = some cv := by
  cases op with
  | mkRecord arg =>
    rcases createRecordFromObject_state feats arg st with hs | ⟨props, hs⟩
    · rw [execOp, hs]; exact h
    · rw [execOp, hs]
      dsimp only
      rw [recordIntern_eq]
      exact internGet_store_mono inv.1 h
  | mkRecordFromEntries pairs =>
    rcases createRecordFromObject_state feats (.o (objectFromEntries pairs)) st with hs | ⟨props, hs⟩
    · show lookupStore (createRecordFromObject feats (.o (objectFromEntries pairs)) st).1.recordGraph.store i = some cv
      rw [hs]; exact h
    · show lookupStore (createRecordFromObject feats (.o (objectFromEntries pairs)) st).1.recordGraph.store i = some cv
      rw [hs]
      dsimp only
      rw [recordIntern_eq]
      exact internGet_store_mono inv.1 h
  | mkTuple vals =>
    rcases createTupleFromIterable_state feats vals st with hs | ⟨elems, hs⟩
    · rw [execOp, hs]; exact h
    · rw [execOp, hs]; exact h
  | trySetField id k v => rw [execOp, setRecordField_eq_of_inv inv]; exact h
  | tryDeleteField id k => rw [execOp, deleteRecordField_eq_of_inv inv]; exact h
  | trySetElement id i v => rw [execOp, setTupleElement_eq_of_inv inv]; exact h

theorem execOp_record_graph (feats : Features) (op : Op) {st : PState}
    {e : List (String × JSVal)} {i : Nat} (inv : StateInv st)
    (h : (e, i) ∈ st.recordGraph.graph) :
    (e, i) ∈ (execOp feats st op).recordGraph.graph := by
  cases op with
  | mkRecord arg =>
    rcases createRecordFromObject_state feats arg st with hs | ⟨props, hs⟩
    · rw [execOp, hs]; exact h
    · rw [execOp, hs]
      dsimp only
      rw [recordIntern_eq]
      exact internGet_graph_mono h
  | mkRecordFromEntries pairs =>
    rcases createRecordFromObject_state feats (.o (objectFromEntries pairs)) st with hs | ⟨props, hs⟩
    · show (e, i) ∈ (createRecordFromObject feats (.o (objectFromEntries pairs)) st).1.recordGraph.graph
      rw [hs]; exact h
    · show (e, i) ∈ (createRecordFromObject feats (.o (objectFromEntries pairs)) st).1.recordGraph.graph
      rw [hs]
      dsimp only
      rw [recordIntern_eq]
      exact internGet_graph_mono h
  | mkTuple vals =>
    rcases createTupleFromIterable_state feats vals st with hs | ⟨elems, hs⟩
    · rw [execOp, hs]; exact h
    · rw [execOp, hs]; exact h
  | trySetField id k v => rw [execOp, setRecordField_eq_of_inv inv]; exact h
  | tryDeleteField id k => rw [execOp, deleteRecordField_eq_of_inv inv]; exact h
  | trySetElement id i v => rw [execOp, setTupleElement_eq_of_inv inv]; exact h

theorem execOp_tuple_store (feats : Features) (op : Op) {st : PState} {i : Nat}
    {cv : CompositeVal JSVal} (inv : StateInv st)
    (h : lookupStore st.tupleGraph.store i = some cv) :
    lookupStore (execOp feats st op).tupleGraph.store i = some cv := by
  cases op with
  | mkRecord arg =>
    rcases createRecordFromObject_state feats arg st with hs | ⟨props, hs⟩
    · rw [execOp, hs]; exact h
    · rw [execOp, hs]; exact h
  | mkRecordFromEntries pairs =>
    rcases createRecordFromObject_state feats (.o (objectFromEntries pairs)) st with hs | ⟨props, hs⟩
    · show lookupStore (createRecordFromObject feats (.o (objectFromEntries pairs)) st).1.tupleGraph.store i = some cv
      rw [hs]; exact h
    · show lookupStore (createRecordFromObject feats (.o (objectFromEntries pairs)) st).1.tupleGraph.store i = some cv
      rw [hs]; exact h
  | mkTuple vals =>
    rcases createTupleFromIterable_state feats vals st with hs | ⟨elems, hs⟩
    · rw [execOp, hs]; exact h
    · rw [execOp, hs]
      dsimp only
      rw [tupleIntern_eq]
      exact internGet_store_mono inv.2 h
  | trySetField id k v => rw [execOp, setRecordField_eq_of_inv inv]; exact h
  | tryDeleteField id k => rw [execOp, deleteRecordField_eq_of_inv inv]; exact h
  | trySetElement id i v => rw [execOp, setTupleElement_eq_of_inv inv]; exact h

theorem execOp_tuple_graph (feats : Features) (op : Op) {st : PState}
    {e : List JSVal} {i : Nat} (inv : StateInv st)
    (h : (e, i) ∈ st.tupleGraph.graph) :
    (e, i) ∈ (execOp feats st op).tupleGraph.graph := by
  cases op with
  | mkRecord arg =>
    rcases createRecordFromObject_state feats arg st with hs | ⟨props, hs⟩
    · rw [execOp, hs]; exact h
    · rw [execOp, hs]; exact h
  | mkRecordFromEntries pairs =>
    rcases createRecordFromObject_state feats (.o (objectFromEntries pairs)) st with hs | ⟨props, hs⟩
    · show (e, i) ∈ (createRecordFromObject feats (.o (objectFromEntries pairs)) st).1.tupleGraph.graph
      rw [hs]; exact h
    · show (e, i) ∈ (createRecordFromObject feats (.o (objectFromEntries pairs)) st).1.tupleGraph.graph
      rw [hs]; exact h
  | mkTuple vals =>
    rcases createTupleFromIterable_state feats vals st with hs | ⟨elems, hs⟩
    · rw [execOp, hs]; exact h
    · rw [execOp, hs]
      dsimp only
      rw [tupleIntern_eq]
      exact internGet_graph_mono h
  | trySetField id k v => rw [execOp, setRecordField_eq_of_inv inv]; exact h
  | tryDeleteField id k => rw [execOp, deleteRecordField_eq_of_inv inv]; exact h
  | trySetElement id i v => rw [execOp, setTupleElement_eq_of_inv inv]; exact h

theorem execOps_inv (feats : Features) (ops : List Op) {st : PState} (inv : StateInv st) :
    StateInv (execOps feats st ops) := by
  induction ops generalizing st with
  | nil => exact inv
  | cons op ops ih => exact ih (execOp_inv feats op inv)

theorem execOps_record_store (feats : Features) (ops : List Op) {st : PState} {i : Nat}
    {cv : CompositeVal (String × JSVal)} (inv : StateInv st)
    (h : lookupStore st.recordGraph.store i = some cv) :
    lookupStore (execOps feats st ops).recordGraph.store i = some cv := by
  induction ops generalizing st with
  | nil => exact h
  | cons op ops ih =>
    exact ih (execOp_inv feats op inv) (execOp_record_store feats op inv h)

theorem execOps_record_graph (feats : Features) (ops : List Op) {st : PState}
    {e : List (String × JSVal)} {i : Nat} (inv : StateInv st)
    (h : (e, i) ∈ st.recordGraph.graph) :
    (e, i) ∈ (execOps feats st ops).recordGraph.graph := by
  induction ops generalizing st with
  | nil => exact h
  | cons op ops ih =>
    exact ih (execOp_inv feats op inv) (execOp_record_graph feats op inv h)

theorem execOps_tuple_store (feats : Features) (ops : List Op) {st : PState} {i : Nat}
    {cv : CompositeVal JSVal} (inv : StateInv st)
    (h : lookupStore st.tupleGraph.store i = some cv) :
    lookupStore (execOps feats st ops).tupleGraph.store i = some cv := by
  induction ops generalizing st with
  | nil => exact h
  | cons op ops ih =>
    exact ih (execOp_inv feats op inv) (execOp_tuple_store feats op inv h)

theorem execOps_tuple_graph (feats : Features) (ops : List Op) {st : PState}
    {e : List JSVal} {i : Nat} (inv : StateInv st)
    (h : (e, i) ∈ st.tupleGraph.graph) :
    (e, i) ∈ (execOps feats st ops).tupleGraph.graph := by
  induction ops generalizing st with
  | nil => exact h
  | cons op ops ih =>
    exact ih (execOp_inv feats op inv) (execOp_tuple_graph feats op inv h)

/-! ### Further constructor step lemmas -/

theorem internGet_ok_of_validate [DecidableEq α] {g : InternGraph α}
    {validate : List α → Except JSError (List α)} {es : List α}
    (hv : validate es = .ok es) :
    ∃ g' i, g.get (createFreshComposite validate) es = (g', .ok i) ∧ (es, i) ∈ g'.graph := by
  rcases internGet_cases g validate es with ⟨i, hl, heq⟩ | ⟨hl, props', hv', heq⟩ | ⟨hl, e, hv', heq⟩
  · exact ⟨g, i, heq, lookupGraph_some_mem hl⟩
  · exact ⟨_, _, heq, List.mem_cons_self _ _⟩
  · rw [hv'] at hv
    exact absurd hv (by simp)

theorem internGet_err_state [DecidableEq α] {g g' : InternGraph α}
    {validate : List α → Except JSError (List α)} {es : List α} {e : JSError}
    (h : g.get (createFreshComposite validate) es = (g', .error e)) : g' = g := by
  rcases internGet_cases g validate es with ⟨i, hl, heq⟩ | ⟨hl, props', hv', heq⟩ | ⟨hl, e', hv', heq⟩
  · rw [heq] at h
    exact absurd (congrArg Prod.snd h) (by simp)
  · rw [heq] at h
    exact absurd (congrArg Prod.snd h) (by simp)
  · rw [heq] at h
    exact (congrArg Prod.fst h).symm

theorem createRecordFromObject_err {feats : Features} {st : PState}
    {fields : List (String × JSVal)} {e : JSError}
    (hf : assertFeatures feats = .ok ())
    (hn : normalizeRecordEntries fields = .error e) :
    createRecordFromObject feats (.o fields) st = (st, .error e) := by
  unfold createRecordFromObject
  rw [hf]
  dsimp only
  have ho : isObjectArg (.o fields) = true := rfl
  simp only [ho, if_true]
  have he : entriesOfArg st (.o fields) = fields := rfl
  rw [he, hn]

theorem createRecordFromObject_ok_build {feats : Features} {st : PState}
    {fields props : List (String × JSVal)} {g' : InternGraph (String × JSVal)} {id : Nat}
    (hf : assertFeatures feats = .ok ())
    (hn : normalizeRecordEntries fields = .ok props)
    (hg : recordIntern props st.recordGraph = (g', .ok id)) :
    createRecordFromObject feats (.o fields) st = ({ st with recordGraph := g' }, .ok id) := by
  unfold createRecordFromObject
  rw [hf]
  dsimp only
  have ho : isObjectArg (.o fields) = true := rfl
  simp only [ho, if_true]
  have he : entriesOfArg st (.o fields) = fields := rfl
  rw [he, hn]
  dsimp only
  rw [hg]

theorem createTupleFromIterable_err {feats : Features} {st : PState}
    {vals : List JSVal} {e : JSError}
    (hf : assertFeatures feats = .ok ())
    (hn : validateElements 0 vals = .error e) :
    createTupleFromIterable feats vals st = (st, .error e) := by
  unfold createTupleFromIterable
  rw [hf]
  dsimp only
  rw [hn]

theorem createTupleFromIterable_ok_build {feats : Features} {st : PState}
    {vals elems : List JSVal} {g' : InternGraph JSVal} {id : Nat}
    (hf : assertFeatures feats = .ok ())
    (hn : validateElements 0 vals = .ok elems)
    (hg : tupleIntern elems st.tupleGraph = (g', .ok id)) :
    createTupleFromIterable feats vals st = ({ st with tupleGraph := g' }, .ok id) := by
  unfold createTupleFromIterable
  rw [hf]
  dsimp only
  rw [hn]
  dsimp only
  rw [hg]

theorem setField_append {acc : List (String × JSVal)} {k : String} {v : JSVal}
    (h : k ∉ acc.map Prod.fst) : setField acc k v = acc ++ [(k, v)] := by
  induction acc with
  | nil => rfl
  | cons p rest ih =>
    obtain ⟨k', v'⟩ := p
    simp only [List.map_cons, List.mem_cons] at h
    push_neg at h
    obtain ⟨h₁, h₂⟩ := h
    have hne : ¬(k' = k) := fun hc => h₁ (Eq.symm hc)
    simp only [setField, if_neg hne]
    rw [ih h₂]
    simp

theorem foldl_setField_append :
    ∀ (pairs acc : List (String × JSVal)),
      (pairs.map Prod.fst).Nodup →
      (∀ p ∈ pairs, p.1 ∉ acc.map Prod.fst) →
      pairs.foldl (fun acc p => setField acc p.1 p.2) acc = acc ++ pairs := by
  intro pairs
  induction pairs with
  | nil => intro acc _ _; simp
  | cons p rest ih =>
    intro acc hnd hdisj
    obtain ⟨k, v⟩ := p
    simp only [List.map_cons, List.nodup_cons] at hnd
    obtain ⟨hk, hnd'⟩ := hnd
    rw [List.foldl_cons]
    rw [setField_append (hdisj (k, v) (List.mem_cons_self _ _))]
    rw [ih (acc ++ [(k, v)]) hnd' ?_]
    · simp
    · intro q hq
      simp only [List.map_append, List.mem_append]
      push_neg
      constructor
      · exact hdisj q (List.mem_cons_of_mem _ hq)
      · intro hc
        simp only [List.map_cons, List.map_nil, List.mem_singleton] at hc
        exact hk (hc ▸ List.mem_map_of_mem Prod.fst hq)

theorem objectFromEntries_nodup {pairs : List (String × JSVal)}
    (h : (pairs.map Prod.fst).Nodup) : objectFromEntries pairs = pairs := by
  unfold objectFromEntries
  rw [foldl_setField_append pairs [] h (by simp)]
  rfl

/-- Shared canonicalization argument for one interning graph: from any
state satisfying the invariant, two consecutive get-or-create calls on
validating entry sequences succeed, preserve the invariant, and return the
same id exactly when the entry sequences are equal. -/
theorem internGet_canonical_pair [DecidableEq α] (g : InternGraph α)
    (validate : List α → Except JSError (List α)) (es₁ es₂ : List α)
    (inv : GraphInv g)
    (hv₁ : validate es₁ = .ok es₁) (hv₂ : validate es₂ = .ok es₂) :
    ∃ g₁ g₂ i₁ i₂,
      g.get (createFreshComposite validate) es₁ = (g₁, .ok i₁) ∧
      g₁.get (createFreshComposite validate) es₂ = (g₂, .ok i₂) ∧
      GraphInv g₁ ∧ GraphInv g₂ ∧
      (i₁ = i₂ ↔ es₁ = es₂) ∧
      (es₁, i₁) ∈ g₂.graph ∧ (es₂, i₂) ∈ g₂.graph := by
  obtain ⟨g₁, i₁, hg₁, hm₁⟩ := @internGet_ok_of_validate _ _ g validate es₁ hv₁
  have inv₁ : GraphInv g₁ := by
    have := @internGet_inv _ _ g validate es₁ inv
    rw [hg₁] at this
    exact this
  obtain ⟨g₂, i₂, hg₂, hm₂⟩ := @internGet_ok_of_validate _ _ g₁ validate es₂ hv₂
  have inv₂ : GraphInv g₂ := by
    have := @internGet_inv _ _ g₁ validate es₂ inv₁
    rw [hg₂] at this
    exact this
  have hm₁' : (es₁, i₁) ∈ g₂.graph := by
    have := @internGet_graph_mono _ _ g₁ validate es₂ es₁ i₁ hm₁
    rw [hg₂] at this
    exact this
  exact ⟨g₁, g₂, i₁, i₂, hg₁, hg₂, inv₁, inv₂,
    (inv₂.canonical es₁ i₁ es₂ i₂ hm₁' hm₂).symm, hm₁', hm₂⟩

/-! ### Claim theorems -/

/-- C1: For every two live composites of the same kind (Record or Tuple),
their entry sequences (nested composites comparing by identity, i.e. by
id) are equal if and only if they are the same object, and every
get-or-create through the interning graph preserves this invariant, so two
constructor calls with equal content always return the identical object.
Stated for both kinds' get-or-create paths: from any record graph and any
tuple graph satisfying the invariant, two consecutive interning calls
succeed, preserve the invariant, and return the same id exactly when the
entry sequences are equal. -/
theorem composite_intern_canonical (gr : InternGraph (String × JSVal))
    (gt : InternGraph JSVal)
    (es₁ es₂ : List (String × JSVal)) (vs₁ vs₂ : List JSVal)
    (invR : GraphInv gr) (invT : GraphInv gt)
    (h₁ : ∀ p ∈ es₁, internable p.2 = true)
    (h₂ : ∀ p ∈ es₂, internable p.2 = true)
    (h₃ : ∀ v ∈ vs₁, internable v = true)
    (h₄ : ∀ v ∈ vs₂, internable v = true) :
    (∃ g₁ g₂ i₁ i₂,
      recordIntern es₁ gr = (g₁, .ok i₁) ∧
      recordIntern es₂ g₁ = (g₂, .ok i₂) ∧
      GraphInv g₁ ∧ GraphInv g₂ ∧
      (i₁ = i₂ ↔ es₁ = es₂) ∧
      (es₁, i₁) ∈ g₂.graph ∧ (es₂, i₂) ∈ g₂.graph) ∧
    (∃ g₁ g₂ i₁ i₂,
      tupleIntern vs₁ gt = (g₁, .ok i₁) ∧
      tupleIntern vs₂ g₁ = (g₂, .ok i₂) ∧
      GraphInv g₁ ∧ GraphInv g₂ ∧
      (i₁ = i₂ ↔ vs₁ = vs₂) ∧
      (vs₁, i₁) ∈ g₂.graph ∧ (vs₂, i₂) ∈ g₂.graph) := by
  constructor
  · obtain ⟨g₁, g₂, i₁, i₂, hg₁, hg₂, inv₁, inv₂, hiff, hm₁, hm₂⟩ :=
      internGet_canonical_pair gr validateProperties es₁ es₂ invR
        (validateProperties_ok_of_all h₁) (validateProperties_ok_of_all h₂)
    refine ⟨g₁, g₂, i₁, i₂, ?_, ?_, inv₁, inv₂, hiff, hm₁, hm₂⟩
    · rw [recordIntern_eq]; exact hg₁
    · rw [recordIntern_eq]; exact hg₂
  · obtain ⟨g₁, g₂, i₁, i₂, hg₁, hg₂, inv₁, inv₂, hiff, hm₁, hm₂⟩ :=
      internGet_canonical_pair gt (validateElements 0) vs₁ vs₂ invT
        (validateElements_ok_of_all 0 h₃) (validateElements_ok_of_all 0 h₄)
    refine ⟨g₁, g₂, i₁, i₂, ?_, ?_, inv₁, inv₂, hiff, hm₁, hm₂⟩
    · rw [tupleIntern_eq]; exact hg₁
    · rw [tupleIntern_eq]; exact hg₂

/-- Witness for C1 at concrete graphs and concrete entry sequences of both
kinds. -/
theorem composite_intern_canonical_witness :
    (∃ g₁ g₂ i₁ i₂,
      recordIntern [("a", JSVal.str "x")] { graph := [], store := [], nextId := 0 }
        = (g₁, .ok i₁) ∧
      recordIntern [] g₁ = (g₂, .ok i₂) ∧
      GraphInv g₁ ∧ GraphInv g₂ ∧
      (i₁ = i₂ ↔ [("a", JSVal.str "x")] = ([] : List (String × JSVal))) ∧
      ([("a", JSVal.str "x")], i₁) ∈ g₂.graph ∧
      (([] : List (String × JSVal)), i₂) ∈ g₂.graph) ∧
    (∃ g₁ g₂ i₁ i₂,
      tupleIntern [JSVal.str "x"] { graph := [], store := [], nextId := 0 }
        = (g₁, .ok i₁) ∧
      tupleIntern [] g₁ = (g₂, .ok i₂) ∧
      GraphInv g₁ ∧ GraphInv g₂ ∧
      (i₁ = i₂ ↔ [JSVal.str "x"] = ([] : List JSVal)) ∧
      ([JSVal.str "x"], i₁) ∈ g₂.graph ∧
      (([] : List JSVal), i₂) ∈ g₂.graph) :=
  composite_intern_canonical { graph := [], store := [], nextId := 0 }
    { graph := [], store := [], nextId := 0 }
    [("a", JSVal.str "x")] [] [JSVal.str "x"] []
    GraphInv.empty GraphInv.empty (by decide) (by decide) (by decide) (by decide)

/-- C2 fails on the code: the sort comparator compares the string form of
whole `[key, value]` entry arrays, so two sources holding the same fields
in different enumeration orders can tie in the comparator (the stable sort
then keeps the enumeration order) and intern as two distinct instances.
Here `{"a,b": "c", "a": "b,c"}`: both entries stringify to `"a,b,c"`, and
the two enumeration orders of the same field set produce ids 0 and 1. -/
theorem record_order_dependence_failure :
    ([("a,b", JSVal.str "c"), ("a", JSVal.str "b,c")] : List (String × JSVal)).Perm
      [("a", JSVal.str "b,c"), ("a,b", JSVal.str "c")] ∧
    (Record allFeatures (.o [("a,b", .str "c"), ("a", .str "b,c")]) emptyState).2 = .ok 0 ∧
    (Record allFeatures (.o [("a", .str "b,c"), ("a,b", .str "c")])
      (Record allFeatures (.o [("a,b", .str "c"), ("a", .str "b,c")]) emptyState).1).2
      = .ok 1 :=
  ⟨by decide, rfl, rfl⟩

/-- C3 fails on the code: the normalization step does not sort by key
alone.  For the source `{"a": "x", "a!": "y"}` the comparator compares
`"a,x"` with `"a!,y"` and `'!' < ','`, so the produced entry sequence puts
key `"a!"` before key `"a"`, although `"a" < "a!"` in the key-only
lexicographic order the spec (and the code comment) call for. -/
theorem record_sort_not_by_key :
    normalizeRecordEntries [("a", JSVal.str "x"), ("a!", JSVal.str "y")]
      = .ok [("a!", JSVal.str "y"), ("a", JSVal.str "x")] ∧
    jsStrLt "a" "a!" = true :=
  ⟨rfl, rfl⟩

/-- C4: For every source with at least one non-internable field value,
`Record` fails with an `InvalidEntry` naming an offending key and value of
the source; `Tuple` fails the same way naming an offending index.  The
failure is returned synchronously from the constructor call and the state
is untouched. -/
theorem construction_rejects_invalid_entries (feats : Features)
    (fields : List (String × JSVal)) (vals : List JSVal) (st : PState)
    (hf : assertFeatures feats = .ok ())
    (hbadR : ∃ p ∈ fields, internable p.2 = false)
    (hbadT : ∃ v ∈ vals, internable v = false) :
    (∃ k v, createRecordFromObject feats (.o fields) st
        = (st, .error (.invalidEntry (.inl k) v)) ∧
      (k, v) ∈ fields ∧ internable v = false) ∧
    (∃ i v, createTupleFromIterable feats vals st
        = (st, .error (.invalidEntry (.inr i) v)) ∧
      vals.get? i = some v ∧ internable v = false) := by
  constructor
  · obtain ⟨p, hp, hbad⟩ := hbadR
    have hsorted : ∃ q ∈ stableSort sortComparator fields, internable q.2 = false :=
      ⟨p, mem_stableSort.mpr hp, hbad⟩
    obtain ⟨k, v, herr, hm, hb⟩ := validateProperties_error_of_bad hsorted
    refine ⟨k, v, ?_, mem_stableSort.mp hm, hb⟩
    exact createRecordFromObject_err hf (by unfold normalizeRecordEntries; exact herr)
  · obtain ⟨j, v, herr, hj, hb⟩ := validateElements_error_of_bad 0 hbadT
    rw [Nat.zero_add] at herr
    exact ⟨j, v, createTupleFromIterable_err hf herr, hj, hb⟩

/-- Witness for C4 at a concrete record source and tuple argument whose
single entry is a function value. -/
theorem construction_rejects_invalid_entries_witness :
    (∃ k v, createRecordFromObject allFeatures (.o [("a", JSVal.func "f")]) emptyState
        = (emptyState, .error (.invalidEntry (.inl k) v)) ∧
      (k, v) ∈ [("a", JSVal.func "f")] ∧ internable v = false) ∧
    (∃ i v, createTupleFromIterable allFeatures [JSVal.func "f"] emptyState
        = (emptyState, .error (.invalidEntry (.inr i) v)) ∧
      [JSVal.func "f"].get? i = some v ∧ internable v = false) :=
  construction_rejects_invalid_entries allFeatures [("a", JSVal.func "f")]
    [JSVal.func "f"] emptyState rfl (by decide) (by decide)

/-- C5: `Record.fromEntries(pairs)` is the same normalization-and-interning
path as `Record` applied to an object holding exactly those fields: for any
sequence of distinct-keyed pairs, the two entry points return the same
result from the same state. -/
theorem fromEntries_same_path (feats : Features) (pairs : List (String × JSVal))
    (st : PState) (h : (pairs.map Prod.fst).Nodup) :
    Record.fromEntries feats pairs st = createRecordFromObject feats (.o pairs) st := by
  unfold Record.fromEntries
  rw [objectFromEntries_nodup h]

/-- Witness for C5 at a concrete pair sequence. -/
theorem fromEntries_same_path_witness :
    Record.fromEntries allFeatures [("b", JSVal.str "y"), ("a", JSVal.str "x")] emptyState
      = createRecordFromObject allFeatures
          (.o [("b", JSVal.str "y"), ("a", JSVal.str "x")]) emptyState :=
  fromEntries_same_path allFeatures [("b", JSVal.str "y"), ("a", JSVal.str "x")]
    emptyState (by decide)

/-- C6: Every composite returned by `Record` or `Tuple` is frozen before it
is returned, and its entries never change for its whole life: whatever
operations follow (constructions or attempted field additions, deletions
and mutations, which on a frozen composite have no observable effect), the
stored composite is unchanged. -/
theorem composites_frozen_and_immutable (feats : Features) (st : PState)
    (inv : StateInv st) :
    (∀ arg st' id, createRecordFromObject feats arg st = (st', .ok id) →
      ∃ cv, lookupStore st'.recordGraph.store id = some cv ∧ cv.frozen = true ∧
        ∀ ops, lookupStore (execOps feats st' ops).recordGraph.store id = some cv) ∧
    (∀ vals st' id, createTupleFromIterable feats vals st = (st', .ok id) →
      ∃ cv, lookupStore st'.tupleGraph.store id = some cv ∧ cv.frozen = true ∧
        ∀ ops, lookupStore (execOps feats st' ops).tupleGraph.store id = some cv) := by
  constructor
  · intro arg st' id h
    obtain ⟨hf, ho, props, g', hn, hg, hst⟩ := createRecordFromObject_ok h
    have hget : st.recordGraph.get (createFreshComposite validateProperties) props
        = (g', .ok id) := by
      rw [← recordIntern_eq]; exact hg
    have hm : (props, id) ∈ g'.graph := internGet_ok_mem hget
    have inv' : GraphInv g' := by
      have := @internGet_inv _ _ st.recordGraph validateProperties props inv.1
      rw [hget] at this
      exact this
    obtain ⟨cv, hcv⟩ := inv'.terminal _ _ hm
    have hfrz : cv.frozen = true := inv'.frozenAll _ _ (lookupStore_some_mem hcv)
    have hstore : lookupStore st'.recordGraph.store id = some cv := by
      rw [hst]; exact hcv
    have hinv' : StateInv st' := by
      rw [hst]; exact ⟨inv', inv.2⟩
    exact ⟨cv, hstore, hfrz, fun ops => execOps_record_store feats ops hinv' hstore⟩
  · intro vals st' id h
    obtain ⟨hf, elems, g', hn, hg, hst⟩ := createTupleFromIterable_ok h
    have hget : st.tupleGraph.get (createFreshComposite (validateElements 0)) elems
        = (g', .ok id) := by
      rw [← tupleIntern_eq]; exact hg
    have hm : (elems, id) ∈ g'.graph := internGet_ok_mem hget
    have inv' : GraphInv g' := by
      have := @internGet_inv _ _ st.tupleGraph (validateElements 0) elems inv.2
      rw [hget] at this
      exact this
    obtain ⟨cv, hcv⟩ := inv'.terminal _ _ hm
    have hfrz : cv.frozen = true := inv'.frozenAll _ _ (lookupStore_some_mem hcv)
    have hstore : lookupStore st'.tupleGraph.store id = some cv := by
      rw [hst]; exact hcv
    have hinv' : StateInv st' := by
      rw [hst]; exact ⟨inv.1, inv'⟩
    exact ⟨cv, hstore, hfrz, fun ops => execOps_tuple_store feats ops hinv' hstore⟩

/-- Witness for C6: the record built from `{"a": "x"}` and the tuple built
from `("x")` in the empty state are frozen and survive any operation
sequence unchanged. -/
theorem composites_frozen_and_immutable_witness :
    (∃ cv, lookupStore
        ((createRecordFromObject allFeatures (.o [("a", JSVal.str "x")]) emptyState).1).recordGraph.store 0
        = some cv ∧ cv.frozen = true ∧
      ∀ ops, lookupStore
        (execOps allFeatures
          (createRecordFromObject allFeatures (.o [("a", JSVal.str "x")]) emptyState).1
          ops).recordGraph.store 0 = some cv) ∧
    (∃ cv, lookupStore
        ((createTupleFromIterable allFeatures [JSVal.str "x"] emptyState).1).tupleGraph.store 0
        = some cv ∧ cv.frozen = true ∧
      ∀ ops, lookupStore
        (execOps allFeatures
          (createTupleFromIterable allFeatures [JSVal.str "x"] emptyState).1
          ops).tupleGraph.store 0 = some cv) :=
  ⟨(composites_frozen_and_immutable allFeatures emptyState StateInv.emptyState).1
      (.o [("a", JSVal.str "x")])
      (createRecordFromObject allFeatures (.o [("a", JSVal.str "x")]) emptyState).1 0 rfl,
   (composites_frozen_and_immutable allFeatures emptyState StateInv.emptyState).2
      [JSVal.str "x"]
      (createTupleFromIterable allFeatures [JSVal.str "x"] emptyState).1 0 rfl⟩

/-- C7: an empty source is valid, and the canonical empty record and empty
tuple are singletons: from any invariant state on a capable host the
construction succeeds, and after any further operations constructing the
empty composite again returns the very same id. -/
theorem empty_singletons (feats : Features) (st : PState)
    (hf : assertFeatures feats = .ok ()) (inv : StateInv st) :
    (∃ st' id, createRecordFromObject feats (.o []) st = (st', .ok id) ∧
      ∀ ops, (createRecordFromObject feats (.o []) (execOps feats st' ops)).2 = .ok id) ∧
    (∃ st' id, createTupleFromIterable feats [] st = (st', .ok id) ∧
      ∀ ops, (createTupleFromIterable feats [] (execOps feats st' ops)).2 = .ok id) := by
  constructor
  · have hv : validateProperties ([] : List (String × JSVal)) = .ok [] := rfl
    obtain ⟨g', id, hget, hm⟩ :=
      @internGet_ok_of_validate _ _ st.recordGraph validateProperties [] hv
    have hn : normalizeRecordEntries [] = .ok [] := rfl
    have hbuild := createRecordFromObject_ok_build hf hn
      (by rw [recordIntern_eq]; exact hget)
    refine ⟨_, id, hbuild, fun ops => ?_⟩
    have inv' : GraphInv g' := by
      have := @internGet_inv _ _ st.recordGraph validateProperties [] inv.1
      rw [hget] at this
      exact this
    have hstinv : StateInv { st with recordGraph := g' } := ⟨inv', inv.2⟩
    have hinv'' : StateInv (execOps feats { st with recordGraph := g' } ops) :=
      execOps_inv feats ops hstinv
    have hm'' : (([] : List (String × JSVal)), id)
        ∈ (execOps feats { st with recordGraph := g' } ops).recordGraph.graph :=
      execOps_record_graph feats ops hstinv hm
    have hhit : recordIntern []
        (execOps feats { st with recordGraph := g' } ops).recordGraph
        = ((execOps feats { st with recordGraph := g' } ops).recordGraph, .ok id) := by
      rw [recordIntern_eq]
      exact internGet_hit_of_mem hinv''.1 hm''
    rw [createRecordFromObject_ok_build hf hn hhit]
  · have hv : validateElements 0 ([] : List JSVal) = .ok [] := rfl
    obtain ⟨g', id, hget, hm⟩ :=
      @internGet_ok_of_validate _ _ st.tupleGraph (validateElements 0) [] hv
    have hbuild := createTupleFromIterable_ok_build hf hv
      (by rw [tupleIntern_eq]; exact hget)
    refine ⟨_, id, hbuild, fun ops => ?_⟩
    have inv' : GraphInv g' := by
      have := @internGet_inv _ _ st.tupleGraph (validateElements 0) [] inv.2
      rw [hget] at this
      exact this
    have hstinv : StateInv { st with tupleGraph := g' } := ⟨inv.1, inv'⟩
    have hinv'' : StateInv (execOps feats { st with tupleGraph := g' } ops) :=
      execOps_inv feats ops hstinv
    have hm'' : (([] : List JSVal), id)
        ∈ (execOps feats { st with tupleGraph := g' } ops).tupleGraph.graph :=
      execOps_tuple_graph feats ops hstinv hm
    have hhit : tupleIntern []
        (execOps feats { st with tupleGraph := g' } ops).tupleGraph
        = ((execOps feats { st with tupleGraph := g' } ops).tupleGraph, .ok id) := by
      rw [tupleIntern_eq]
      exact internGet_hit_of_mem hinv''.2 hm''
    rw [createTupleFromIterable_ok_build hf hv hhit]

/-- Witness for C7 at the empty state on a fully capable host. -/
theorem empty_singletons_witness :
    (∃ st' id, createRecordFromObject allFeatures (.o []) emptyState = (st', .ok id) ∧
      ∀ ops, (createRecordFromObject allFeatures (.o [])
        (execOps allFeatures st' ops)).2 = .ok id) ∧
    (∃ st' id, createTupleFromIterable allFeatures [] emptyState = (st', .ok id) ∧
      ∀ ops, (createTupleFromIterable allFeatures []
        (execOps allFeatures st' ops)).2 = .ok id) :=
  empty_singletons allFeatures emptyState rfl StateInv.emptyState

/-- C8 fails as stated: the capability check is not a one-time load-time
event in the code — `createRecordFromObject` invokes `assertFeatures()` at
the start of every call (record.js line 40), so on an incapable host the
capability error is raised afresh by every constructor call: here two
successive `Record` calls and a `Tuple` call each fail with the same
`CapabilityMissing` error. -/
theorem capability_error_every_call :
    (createRecordFromObject { weakRefs := false, freeze := true, stableIdentity := true }
      (.o []) emptyState).2 = .error (.capabilityMissing "weak reference") ∧
    (createRecordFromObject { weakRefs := false, freeze := true, stableIdentity := true }
      (.o [])
      (createRecordFromObject { weakRefs := false, freeze := true, stableIdentity := true }
        (.o []) emptyState).1).2 = .error (.capabilityMissing "weak reference") ∧
    (createTupleFromIterable { weakRefs := false, freeze := true, stableIdentity := true }
      [] emptyState).2 = .error (.capabilityMissing "weak reference") :=
  ⟨rfl, rfl, rfl⟩

/-- C8 (amended): if the host lacks a required primitive, every
construction attempt fails fast with the descriptive capability error
before any normalization or interning occurs (the state is returned
unchanged); the check runs at the start of each constructor call rather
than once at load time. -/
theorem capability_failfast_each_call (feats : Features) (arg : JSArg)
    (vals : List JSVal) (st : PState) (e : JSError)
    (hf : assertFeatures feats = .error e) :
    createRecordFromObject feats arg st = (st, .error e) ∧
    createTupleFromIterable feats vals st = (st, .error e) := by
  constructor
  · unfold createRecordFromObject
    rw [hf]
  · unfold createTupleFromIterable
    rw [hf]

/-- Witness for the amended C8 on a host without weak references. -/
theorem capability_failfast_each_call_witness :
    createRecordFromObject { weakRefs := false, freeze := true, stableIdentity := true }
      (.o [("a", JSVal.str "x")]) emptyState
      = (emptyState, .error (.capabilityMissing "weak reference")) ∧
    createTupleFromIterable { weakRefs := false, freeze := true, stableIdentity := true }
      [JSVal.str "x"] emptyState
      = (emptyState, .error (.capabilityMissing "weak reference")) :=
  capability_failfast_each_call
    { weakRefs := false, freeze := true, stableIdentity := true }
    (.o [("a", JSVal.str "x")]) [JSVal.str "x"] emptyState
    (.capabilityMissing "weak reference") rfl

/-- C9: construction is atomic — every construction-time failure is
returned directly to the caller and leaves the state (the interning
graphs and stores) exactly as it was: no composite is created or
interned on a failing call. -/
theorem construction_atomic (feats : Features) (arg : JSArg) (vals : List JSVal)
    (st : PState) (e₁ e₂ : JSError) :
    ((createRecordFromObject feats arg st).2 = .error e₁ →
      (createRecordFromObject feats arg st).1 = st) ∧
    ((createTupleFromIterable feats vals st).2 = .error e₂ →
      (createTupleFromIterable feats vals st).1 = st) := by
  constructor
  · unfold createRecordFromObject
    cases hf : assertFeatures feats with
    | error e₀ => intro h; rfl
    | ok u =>
      cases u
      cases ho : isObjectArg arg with
      | false => intro h; rfl
      | true =>
        cases hn : normalizeRecordEntries (entriesOfArg st arg) with
        | error e₀ => intro h; rfl
        | ok props =>
          intro h
          have h' : (recordIntern props st.recordGraph).2 = .error e₁ := h
          have hg : (recordIntern props st.recordGraph).1 = st.recordGraph :=
            internGet_err_state
              (show st.recordGraph.get (createFreshComposite validateProperties) props
                  = ((recordIntern props st.recordGraph).1, .error e₁) by
                rw [← recordIntern_eq, ← h'])
          show PState.mk (recordIntern props st.recordGraph).1 st.tupleGraph = st
          rw [hg]
  · unfold createTupleFromIterable
    cases hf : assertFeatures feats with
    | error e₀ => intro h; rfl
    | ok u =>
      cases u
      cases hn : validateElements 0 vals with
      | error e₀ => intro h; rfl
      | ok elems =>
        intro h
        have h' : (tupleIntern elems st.tupleGraph).2 = .error e₂ := h
        have hg : (tupleIntern elems st.tupleGraph).1 = st.tupleGraph :=
          internGet_err_state
            (show st.tupleGraph.get (createFreshComposite (validateElements 0)) elems
                = ((tupleIntern elems st.tupleGraph).1, .error e₂) by
              rw [← tupleIntern_eq, ← h'])
        show PState.mk st.recordGraph (tupleIntern elems st.tupleGraph).1 = st
        rw [hg]

/-- Witness for C9 at concrete failing inputs: a non-object record
argument and a tuple argument with a function element; both failures
leave the empty state unchanged. -/
theorem construction_atomic_witness :
    (createRecordFromObject allFeatures (.v (.num 3)) emptyState).1 = emptyState ∧
    (createTupleFromIterable allFeatures [JSVal.func "f"] emptyState).1 = emptyState :=
  ⟨(construction_atomic allFeatures (.v (.num 3)) [JSVal.func "f"] emptyState
      (.plain "invalid value, expected object argument")
      (.invalidEntry (.inr 0) (JSVal.func "f"))).1 rfl,
   (construction_atomic allFeatures (.v (.num 3)) [JSVal.func "f"] emptyState
      (.plain "invalid value, expected object argument")
      (.invalidEntry (.inr 0) (JSVal.func "f"))).2 rfl⟩

/-- C10: for every argument that the `isObject` check rejects, `Record`
fails with the plain host error `"invalid value, expected object
argument"` — not an `InvalidEntry` — and it does so before any entry
normalization or interning-graph access: the state is returned exactly as
it was. -/
theorem nonobject_plain_error (feats : Features) (x : JSVal) (st : PState)
    (hf : assertFeatures feats = .ok ()) (hx : isObject x = false) :
    createRecordFromObject feats (.v x) st
      = (st, .error (.plain "invalid value, expected object argument")) := by
  unfold createRecordFromObject
  rw [hf]
  dsimp only
  have ho : isObjectArg (.v x) = isObject x := rfl
  rw [ho, hx]
  simp

/-- Witness for C10 at the number 3 as argument. -/
theorem nonobject_plain_error_witness :
    createRecordFromObject allFeatures (.v (.num 3)) emptyState
      = (emptyState, .error (.plain "invalid value, expected object argument")) :=
  nonobject_plain_error allFeatures (.num 3) emptyState rfl rfl

end RecordTuple
